import Mathlib

/-!
Verification of the `re-reg` register / bit-field library.

The development shallowly embeds the core of the crate (`src/register/bitfield.rs`,
`src/register.rs`, `src/register/macros.rs`, `src/int.rs`) over `Nat`.
Register values of the Rust type `T` (an unsigned integer of width `w` bits)
are natural numbers, with a reduction `% 2 ^ w` written explicitly wherever
the Rust arithmetic truncates to the width.  Stateful register accesses are
embedded as explicit state passing: the stored raw value of the register is
the state, `read` observes it and `write` replaces it.
-/

namespace ReReg

/-- Truncation of a value to `w` bits, the implicit effect of storing a Rust
expression into a variable of the `w`-bit unsigned type `T`. -/
def wtrunc (w x : Nat) : Nat := x % 2 ^ w

/-- Rust `wrapping_sub` on the `w`-bit unsigned type: `(a - b) mod 2^w`. -/
def wsub (w a b : Nat) : Nat := (a % 2 ^ w + (2 ^ w - b % 2 ^ w)) % 2 ^ w

/-- Rust `wrapping_shl` on the `w`-bit unsigned type: the shift count is
reduced modulo the bit width (for the widths 8/16/32/64 the Rust masking
`s & (w - 1)` coincides with `s % w`), and the result is truncated. -/
def wshl (w x s : Nat) : Nat := (x <<< (s % w)) % 2 ^ w

/-- Rust `!x` (bitwise NOT) on the `w`-bit unsigned type: every one of the
`w` bits is flipped. -/
def wnot (w x : Nat) : Nat := x ^^^ (2 ^ w - 1)

/-- Embeds `UIntLike::zero` from `src/int.rs`: the value `0`. -/
def UIntLike.zero : Nat := 0

/-- Embeds `UIntLike::all` from `src/int.rs`: computed there as
`(0 as T).wrapping_sub(1)`. -/
def UIntLike.all (w : Nat) : Nat := wsub w 0 1

/-- Embeds `struct Bits<T, R>` from `src/register/bitfield.rs` (the
`PhantomData` register tag has no runtime content and is dropped). -/
structure Bits where
  offset : Nat
  mask : Nat
deriving DecidableEq

/-- Embeds `struct MaskedVal<T, R>` from `src/register/bitfield.rs`. -/
structure MaskedVal where
  val : Nat
  mask : Nat
deriving DecidableEq

/-- Embeds `Bits::val` (bitfield.rs lines 108-118):
`MaskedVal { val: (val << self.offset as usize) & self.mask, mask: self.mask }`.
The Rust shift is performed in the `w`-bit type, hence the truncation. -/
def Bits.val (w : Nat) (b : Bits) (v : Nat) : MaskedVal :=
  { val := wtrunc w (v <<< b.offset) &&& b.mask, mask := b.mask }

/-- Embeds `impl Add<MaskedVal> for MaskedVal` (bitfield.rs lines 34-43):
`self.val |= rhs.val; self.mask |= rhs.mask`. -/
def MaskedVal.addMV (a rhs : MaskedVal) : MaskedVal :=
  { val := a.val ||| rhs.val, mask := a.mask ||| rhs.mask }

/-- Embeds `impl Add<Bits> for MaskedVal` (bitfield.rs lines 45-54):
`self.val |= rhs.mask; self.mask |= rhs.mask`. -/
def MaskedVal.addBits (a : MaskedVal) (rhs : Bits) : MaskedVal :=
  { val := a.val ||| rhs.mask, mask := a.mask ||| rhs.mask }

/-- Embeds `impl Add<MaskedVal> for Bits` (bitfield.rs lines 56-65):
`rhs.val |= self.mask; rhs.mask |= self.mask`. -/
def Bits.addMV (b : Bits) (rhs : MaskedVal) : MaskedVal :=
  { val := rhs.val ||| b.mask, mask := rhs.mask ||| b.mask }

/-- Embeds `impl Add<Bits> for Bits` (bitfield.rs lines 85-96):
`offset = min(self.offset, rhs.offset)`, `mask = self.mask | rhs.mask`. -/
def Bits.addBits (b rhs : Bits) : Bits :=
  { offset := min b.offset rhs.offset, mask := b.mask ||| rhs.mask }

/-- Register state: the raw stored value.  `read` on a register returns the
stored value (register.rs: the load returns `self.raw`). -/
def reg_read (r : Nat) : Nat := r

/-- `write` on a writable register replaces the stored value
(register.rs: the store overwrites `self.raw`). -/
def reg_write (_r v : Nat) : Nat := v

/-- Embeds the trait default `ReadableIO::get` (bitfield.rs lines 127-131):
`(self.read() & bits.mask) >> (bits.offset as usize)`. -/
def get (r : Nat) (bits : Bits) : Nat :=
  (reg_read r &&& bits.mask) >>> bits.offset

/-- Embeds the trait default `ReadableIO::is_set` (bitfield.rs lines 133-137):
`(self.read() & bits.mask) == bits.mask`. -/
def is_set (r : Nat) (bits : Bits) : Bool :=
  (reg_read r &&& bits.mask) == bits.mask

/-- Embeds the trait default `WritableIO::put` (bitfield.rs lines 149-153):
`self.write(val.val)`.  The read-write representation `RWInnerRegister` keeps
this derived default: its `WritableIO` impl (register.rs lines 101-112)
provides only `write`. -/
def put (r : Nat) (mv : MaskedVal) : Nat := reg_write r mv.val

/-- Embeds the trait default `WritableIO::set` (bitfield.rs lines 155-159):
`self.write(bits.mask)`. -/
def set (r : Nat) (bits : Bits) : Nat := reg_write r bits.mask

/-- Embeds the trait default `WritableIO::set_all` (bitfield.rs lines 161-165):
`self.write(T::all())`. -/
def set_all (w r : Nat) : Nat := reg_write r (UIntLike.all w)

/-- Embeds the trait default `WritableIO::clear_all` (bitfield.rs lines 167-171):
`self.write(T::zero())`. -/
def clear_all (r : Nat) : Nat := reg_write r UIntLike.zero

/-- Embeds `ReadWritableIO::put_back` (bitfield.rs lines 189-193):
`self.write(self.read() & (!val.mask) | val.val)`; in Rust `&` binds tighter
than `|`. -/
def put_back (w r : Nat) (mv : MaskedVal) : Nat :=
  reg_write r (reg_read r &&& wnot w mv.mask ||| mv.val)

/-- Embeds `ReadWritableIO::set_back` (bitfield.rs lines 195-199):
`self.write(self.read() | bits.mask)`. -/
def set_back (r : Nat) (bits : Bits) : Nat :=
  reg_write r (reg_read r ||| bits.mask)

/-- Embeds `ReadWritableIO::clear` (bitfield.rs lines 201-205):
`self.write(self.read() & (!bits.mask))`. -/
def clear (w r : Nat) (bits : Bits) : Nat :=
  reg_write r (reg_read r &&& wnot w bits.mask)

/-- Embeds the mask computation of the `reg_bitfields!` macro
(macros.rs line 218):
`(((1 as T).wrapping_shl(size) & ((0 as T).wrapping_sub(2))).wrapping_sub(1) << offset`,
the result being stored in the `w`-bit field `mask` of `Bits`. -/
def genMask (w offset size : Nat) : Nat :=
  wtrunc w ((wsub w (wshl w 1 size &&& wsub w 0 2) 1) <<< offset)

/-- Validation performed by the `assert!`s of `reg_bitfields!`
(macros.rs lines 208-215): `size > 0`, `size <= w`, `size + offset <= w`. -/
def validField (w offset size : Nat) : Prop :=
  0 < size ∧ size ≤ w ∧ size + offset ≤ w

/-- MaskedVal values reachable through the public interface: produced by
`Bits.val` or by one of the three `+` combinations yielding a `MaskedVal`.
Every `Bits` in Rust stores its mask in the `w`-bit type, hence the
`mask < 2 ^ w` side conditions. -/
inductive Reach (w : Nat) : MaskedVal → Prop where
  | ofVal (b : Bits) (v : Nat) (hb : b.mask < 2 ^ w) : Reach w (Bits.val w b v)
  | ofAddMV (a b : MaskedVal) (ha : Reach w a) (hb : Reach w b) :
      Reach w (MaskedVal.addMV a b)
  | ofAddBits (a : MaskedVal) (b : Bits) (ha : Reach w a) (hb : b.mask < 2 ^ w) :
      Reach w (MaskedVal.addBits a b)
  | ofBitsAdd (b : Bits) (a : MaskedVal) (ha : Reach w a) (hb : b.mask < 2 ^ w) :
      Reach w (Bits.addMV b a)

/-- Kinds of raw memory accesses performed by the register representations. -/
inductive MemAccess where
  | volatileLoad
  | plainLoad
  | volatileStore
  | plainStore
deriving DecidableEq

/-- Accesses performed by one call to `ROInnerRegister::read`
(register.rs lines 40-45): `ptr::read_volatile(&self.raw)`. -/
def roReadAccesses : List MemAccess := [MemAccess.volatileLoad]

/-- Accesses performed by one call to `WOInnerRegister::write`
(register.rs lines 64-69): `self.raw.get().write_volatile(val)`. -/
def woWriteAccesses : List MemAccess := [MemAccess.volatileStore]

/-- Accesses performed by one call to `RWInnerRegister::read`
(register.rs lines 93-98): `self.raw.get().read()` — a plain,
non-volatile pointer read. -/
def rwReadAccesses : List MemAccess := [MemAccess.plainLoad]

/-- Accesses performed by one call to `RWInnerRegister::write`
(register.rs lines 106-111): `self.raw.get().write_volatile(val)`. -/
def rwWriteAccesses : List MemAccess := [MemAccess.volatileStore]

lemma two_pow_pos (w : Nat) : 0 < 2 ^ w := Nat.pos_pow_of_pos w (by norm_num)

lemma testBit_high {x w i : Nat} (hx : x < 2 ^ w) (hi : w ≤ i) : x.testBit i = false :=
  Nat.testBit_lt_two_pow (lt_of_lt_of_le hx (Nat.pow_le_pow_right (by norm_num) hi))

lemma wnot_testBit (w x i : Nat) :
    (wnot w x).testBit i = xor (x.testBit i) (decide (i < w)) := by
  unfold wnot
  rw [Nat.testBit_xor, Nat.testBit_two_pow_sub_one]

lemma wtrunc_testBit (w x i : Nat) :
    (wtrunc w x).testBit i = (decide (i < w) && x.testBit i) := by
  unfold wtrunc
  exact Nat.testBit_mod_two_pow x w i

lemma all_eq (w : Nat) : UIntLike.all w = 2 ^ w - 1 := by
  unfold UIntLike.all wsub
  rcases Nat.eq_zero_or_pos w with hw | hw
  · subst hw; rfl
  · have h2 : 2 ≤ 2 ^ w := by
      calc 2 = 2 ^ 1 := rfl
      _ ≤ 2 ^ w := Nat.pow_le_pow_right (by norm_num) hw
    have e1 : (1 : Nat) % 2 ^ w = 1 := Nat.mod_eq_of_lt (by omega)
    rw [e1, Nat.zero_mod, Nat.zero_add, Nat.mod_eq_of_lt (by omega)]

lemma reach_spec {w : Nat} {mv : MaskedVal} (h : Reach w mv) :
    mv.val < 2 ^ w ∧ mv.mask < 2 ^ w ∧
    ∀ i, mv.val.testBit i = true → mv.mask.testBit i = true := by
  induction h with
  | ofVal b v hb =>
      refine ⟨?_, hb, ?_⟩
      · simp only [Bits.val, wtrunc]
        exact lt_of_le_of_lt Nat.and_le_left (Nat.mod_lt _ (two_pow_pos w))
      · intro i hi
        simp only [Bits.val] at hi ⊢
        rw [Nat.testBit_and] at hi
        exact (Bool.and_eq_true_iff.mp hi).2
  | ofAddMV a b ha hb iha ihb =>
      refine ⟨Nat.or_lt_two_pow iha.1 ihb.1, Nat.or_lt_two_pow iha.2.1 ihb.2.1, ?_⟩
      intro i hi
      simp only [MaskedVal.addMV] at hi ⊢
      rw [Nat.testBit_or] at hi ⊢
      rcases Bool.or_eq_true_iff.mp hi with hl | hr
      · simp [iha.2.2 i hl]
      · simp [ihb.2.2 i hr]
  | ofAddBits a b ha hb iha =>
      refine ⟨Nat.or_lt_two_pow iha.1 hb, Nat.or_lt_two_pow iha.2.1 hb, ?_⟩
      intro i hi
      simp only [MaskedVal.addBits] at hi ⊢
      rw [Nat.testBit_or] at hi ⊢
      rcases Bool.or_eq_true_iff.mp hi with hl | hr
      · simp [iha.2.2 i hl]
      · simp [hr]
  | ofBitsAdd b a ha hb iha =>
      refine ⟨Nat.or_lt_two_pow iha.1 hb, Nat.or_lt_two_pow iha.2.1 hb, ?_⟩
      intro i hi
      simp only [Bits.addMV] at hi ⊢
      rw [Nat.testBit_or] at hi ⊢
      rcases Bool.or_eq_true_iff.mp hi with hl | hr
      · simp [iha.2.2 i hl]
      · simp [hr]

lemma subset_inv {w v m : Nat} (hv : v < 2 ^ w)
    (hsub : ∀ i, v.testBit i = true → m.testBit i = true) :
    v &&& wnot w m = 0 := by
  apply Nat.eq_of_testBit_eq
  intro i
  rw [Nat.testBit_and, wnot_testBit, Nat.zero_testBit]
  by_cases hi : i < w
  · cases hvb : v.testBit i
    · simp
    · simp [hsub i hvb, hi]
  · have h1 : v.testBit i = false := testBit_high hv (Nat.le_of_not_lt hi)
    simp [h1]

/-- C10: every MaskedVal reachable through the public interface — produced by
`Bits.val` or by any of the three `+` combinations yielding a `MaskedVal` —
satisfies `val &&& NOT mask = 0` (its value bits lie inside its mask), and
each combination applied to reachable operands preserves the invariant. -/
theorem C10_maskedval_invariant (w : Nat) :
    (∀ mv, Reach w mv → mv.val &&& wnot w mv.mask = 0) ∧
    (∀ a b, Reach w a → Reach w b →
      (MaskedVal.addMV a b).val &&& wnot w (MaskedVal.addMV a b).mask = 0) ∧
    (∀ a b, Reach w a → Bits.mask b < 2 ^ w →
      (MaskedVal.addBits a b).val &&& wnot w (MaskedVal.addBits a b).mask = 0 ∧
      (Bits.addMV b a).val &&& wnot w (Bits.addMV b a).mask = 0) := by
  have main : ∀ mv, Reach w mv → mv.val &&& wnot w mv.mask = 0 := by
    intro mv h
    obtain ⟨hv, -, hsub⟩ := reach_spec h
    exact subset_inv hv hsub
  refine ⟨main, ?_, ?_⟩
  · intro a b ha hb
    exact main _ (Reach.ofAddMV a b ha hb)
  · intro a b ha hb
    exact ⟨main _ (Reach.ofAddBits a b ha hb), main _ (Reach.ofBitsAdd b a ha hb)⟩

/-- Witness for C10 at width 8: the MaskedVal built by putting 3 into a field
of mask 0x06 and merging with a bare field of mask 0x30 has its value bits
inside its mask. -/
theorem C10_maskedval_invariant_witness :
    (MaskedVal.addBits (Bits.val 8 ⟨1, 6⟩ 3) ⟨4, 48⟩).val &&&
      wnot 8 (MaskedVal.addBits (Bits.val 8 ⟨1, 6⟩ 3) ⟨4, 48⟩).mask = 0 :=
  (C10_maskedval_invariant 8).1 _
    (Reach.ofAddBits _ ⟨4, 48⟩ (Reach.ofVal ⟨1, 6⟩ 3 (by decide)) (by decide))

/-- C9 (divergence witness): the claim says that for every representation `read()`
performs exactly one volatile load, but `RWInnerRegister::read`
(register.rs line 96) performs a plain, non-volatile `ptr::read`; the
read-only representation and all the stores are volatile. -/
theorem C9_rw_read_not_volatile :
    rwReadAccesses = [MemAccess.plainLoad] ∧
    MemAccess.plainLoad ≠ MemAccess.volatileLoad ∧
    roReadAccesses = [MemAccess.volatileLoad] ∧
    woWriteAccesses = [MemAccess.volatileStore] ∧
    rwWriteAccesses = [MemAccess.volatileStore] := by
  refine ⟨rfl, by decide, rfl, rfl, rfl⟩

/-- C3: for every Bits descriptor and raw value, `val` returns a MaskedVal
whose value is `(v << offset) & mask` and whose mask is the mask of the field;
bits of `v` outside the field are silently discarded by the mask (the
function is total, so no error is ever produced). -/
theorem C3_bits_val_shift_and_mask (w : Nat) (b : Bits) (v : Nat)
    (hb : b.mask < 2 ^ w) :
    (Bits.val w b v).val = (v <<< b.offset) &&& b.mask ∧
    (Bits.val w b v).mask = b.mask ∧
    ∀ i, b.mask.testBit i = false → (Bits.val w b v).val.testBit i = false := by
  refine ⟨?_, rfl, ?_⟩
  · apply Nat.eq_of_testBit_eq
    intro i
    simp only [Bits.val]
    rw [Nat.testBit_and, Nat.testBit_and, wtrunc_testBit]
    by_cases hi : i < w
    · simp [hi]
    · have h1 : b.mask.testBit i = false := testBit_high hb (Nat.le_of_not_lt hi)
      simp [h1]
  · intro i hmi
    simp only [Bits.val]
    rw [Nat.testBit_and, hmi]
    simp

/-- Witness for C3 at width 8: a field at offset 2 of mask 0b1100 maps the
over-wide raw value 0b111 to value 0b1100 with mask 0b1100. -/
theorem C3_bits_val_shift_and_mask_witness :
    (Bits.val 8 ⟨2, 12⟩ 7).val = (7 <<< 2) &&& 12 ∧
    (Bits.val 8 ⟨2, 12⟩ 7).mask = 12 ∧
    ∀ i, (12 : Nat).testBit i = false → (Bits.val 8 ⟨2, 12⟩ 7).val.testBit i = false :=
  C3_bits_val_shift_and_mask 8 ⟨2, 12⟩ 7 (by decide)

/-- C4: combining two MaskedVal operands ORs their values and ORs their
masks; on overlapping masks each shared value bit is the logical OR of the
bits of the operands, so two fields covering bit 0 with values 1 and 0 combine to
bit 0 = 1. -/
theorem C4_mv_add_mv_or (w : Nat) (a b : MaskedVal) (hw : 0 < w) :
    (MaskedVal.addMV a b).val = a.val ||| b.val ∧
    (MaskedVal.addMV a b).mask = a.mask ||| b.mask ∧
    (∀ i, (MaskedVal.addMV a b).val.testBit i =
      (a.val.testBit i || b.val.testBit i)) ∧
    (MaskedVal.addMV (Bits.val w ⟨0, 1⟩ 1) (Bits.val w ⟨0, 1⟩ 0)).val.testBit 0
      = true := by
  have h2 : 2 ≤ 2 ^ w := by
    calc 2 = 2 ^ 1 := rfl
    _ ≤ 2 ^ w := Nat.pow_le_pow_right (by norm_num) hw
  refine ⟨rfl, rfl, ?_, ?_⟩
  · intro i
    simp only [MaskedVal.addMV]
    exact Nat.testBit_or a.val b.val i
  · simp only [MaskedVal.addMV, Bits.val, wtrunc]
    rw [Nat.testBit_or]
    have e1 : ((1 : Nat) <<< 0) % 2 ^ w = 1 := by
      rw [Nat.shiftLeft_zero, Nat.mod_eq_of_lt (by omega)]
    rw [e1]
    simp

/-- Witness for C4 at width 8 with the operands of the overlap scenario. -/
theorem C4_mv_add_mv_or_witness :
    (MaskedVal.addMV (Bits.val 8 ⟨0, 1⟩ 1) (Bits.val 8 ⟨0, 1⟩ 0)).val =
      (Bits.val 8 ⟨0, 1⟩ 1).val ||| (Bits.val 8 ⟨0, 1⟩ 0).val ∧
    (MaskedVal.addMV (Bits.val 8 ⟨0, 1⟩ 1) (Bits.val 8 ⟨0, 1⟩ 0)).mask =
      (Bits.val 8 ⟨0, 1⟩ 1).mask ||| (Bits.val 8 ⟨0, 1⟩ 0).mask ∧
    (∀ i, (MaskedVal.addMV (Bits.val 8 ⟨0, 1⟩ 1) (Bits.val 8 ⟨0, 1⟩ 0)).val.testBit i =
      ((Bits.val 8 ⟨0, 1⟩ 1).val.testBit i || (Bits.val 8 ⟨0, 1⟩ 0).val.testBit i)) ∧
    (MaskedVal.addMV (Bits.val 8 ⟨0, 1⟩ 1) (Bits.val 8 ⟨0, 1⟩ 0)).val.testBit 0
      = true :=
  C4_mv_add_mv_or 8 (Bits.val 8 ⟨0, 1⟩ 1) (Bits.val 8 ⟨0, 1⟩ 0) (by decide)

/-- C5: merging a bare Bits with a MaskedVal, in either operand order, yields
value `mv.val ||| b.mask` and mask `mv.mask ||| b.mask` — the bare field
forces all of its mask bits to 1 — and the two orders agree. -/
theorem C5_bits_mv_merge_symmetric (b : Bits) (mv : MaskedVal) :
    (Bits.addMV b mv).val = mv.val ||| b.mask ∧
    (Bits.addMV b mv).mask = mv.mask ||| b.mask ∧
    (MaskedVal.addBits mv b).val = mv.val ||| b.mask ∧
    (MaskedVal.addBits mv b).mask = mv.mask ||| b.mask ∧
    Bits.addMV b mv = MaskedVal.addBits mv b ∧
    ∀ i, b.mask.testBit i = true → (Bits.addMV b mv).val.testBit i = true := by
  refine ⟨rfl, rfl, rfl, rfl, rfl, ?_⟩
  intro i hbi
  simp only [Bits.addMV]
  rw [Nat.testBit_or, hbi]
  simp

/-- Witness for C5 with a concrete field (mask 0b110000) and MaskedVal. -/
theorem C5_bits_mv_merge_symmetric_witness :
    (Bits.addMV ⟨4, 48⟩ ⟨5, 7⟩).val = 5 ||| 48 ∧
    (Bits.addMV ⟨4, 48⟩ ⟨5, 7⟩).mask = 7 ||| 48 ∧
    (MaskedVal.addBits ⟨5, 7⟩ ⟨4, 48⟩).val = 5 ||| 48 ∧
    (MaskedVal.addBits ⟨5, 7⟩ ⟨4, 48⟩).mask = 7 ||| 48 ∧
    Bits.addMV ⟨4, 48⟩ ⟨5, 7⟩ = MaskedVal.addBits ⟨5, 7⟩ ⟨4, 48⟩ ∧
    ∀ i, (48 : Nat).testBit i = true →
      (Bits.addMV ⟨4, 48⟩ ⟨5, 7⟩).val.testBit i = true :=
  C5_bits_mv_merge_symmetric ⟨4, 48⟩ ⟨5, 7⟩

/-- C6: on every register offering the Writable capability — including the
read-write representation, whose Writable impl provides only `write` and
keeps the derived defaults — `put` stores exactly the value of the MaskedVal,
`set` stores exactly the mask of the field, `set_all` stores the all-ones value
of the width, `clear_all` stores zero; each writes the whole register, so
every non-target bit becomes 0 (or 1 for `set_all`), for any prior value. -/
theorem C6_clobbering_writes (w r : Nat) (mv : MaskedVal) (b : Bits)
    (hmv : Reach w mv) :
    put r mv = mv.val ∧
    set r b = b.mask ∧
    set_all w r = 2 ^ w - 1 ∧
    clear_all r = 0 ∧
    (∀ i, mv.mask.testBit i = false → (put r mv).testBit i = false) ∧
    (∀ i, b.mask.testBit i = false → (set r b).testBit i = false) ∧
    (∀ i, i < w → (set_all w r).testBit i = true) := by
  obtain ⟨-, -, hsub⟩ := reach_spec hmv
  refine ⟨rfl, rfl, all_eq w, rfl, ?_, ?_, ?_⟩
  · intro i hmi
    show mv.val.testBit i = false
    cases hvb : mv.val.testBit i
    · rfl
    · exact absurd (hsub i hvb) (by simp [hmi])
  · intro i hmi
    exact hmi
  · intro i hi
    show (UIntLike.all w).testBit i = true
    rw [all_eq, Nat.testBit_two_pow_sub_one]
    simp [hi]

/-- Witness for C6 at width 8: prior value 0x5A, MaskedVal from putting 1
into the single-bit field at offset 3, bare field of mask 0b11000000. -/
theorem C6_clobbering_writes_witness :
    put 90 (Bits.val 8 ⟨3, 8⟩ 1) = (Bits.val 8 ⟨3, 8⟩ 1).val ∧
    set 90 ⟨6, 192⟩ = 192 ∧
    set_all 8 90 = 2 ^ 8 - 1 ∧
    clear_all 90 = 0 ∧
    (∀ i, (Bits.val 8 ⟨3, 8⟩ 1).mask.testBit i = false →
      (put 90 (Bits.val 8 ⟨3, 8⟩ 1)).testBit i = false) ∧
    (∀ i, (192 : Nat).testBit i = false → (set 90 ⟨6, 192⟩).testBit i = false) ∧
    (∀ i, i < 8 → (set_all 8 90).testBit i = true) :=
  C6_clobbering_writes 8 90 (Bits.val 8 ⟨3, 8⟩ 1) ⟨6, 192⟩
    (Reach.ofVal ⟨3, 8⟩ 1 (by decide))

/-- C7: on a read-write register, `clear(b)` followed by `set_back(b)` makes
every bit of `b.mask` read as 1, for any prior value; and starting from the
all-ones value, `clear_all` followed by `set_all` yields all-ones again. -/
theorem C7_clear_then_set_back (w old : Nat) (b : Bits) :
    (∀ i, b.mask.testBit i = true →
      (set_back (clear w old b) b).testBit i = true) ∧
    set_all w (clear_all (UIntLike.all w)) = UIntLike.all w := by
  refine ⟨?_, rfl⟩
  intro i hbi
  show (old &&& wnot w b.mask ||| b.mask).testBit i = true
  rw [Nat.testBit_or, hbi]
  simp

/-- Witness for C7 at width 8 with prior value 0x35 and mask 0b1110. -/
theorem C7_clear_then_set_back_witness :
    (∀ i, (14 : Nat).testBit i = true →
      (set_back (clear 8 53 ⟨1, 14⟩) ⟨1, 14⟩).testBit i = true) ∧
    set_all 8 (clear_all (UIntLike.all 8)) = UIntLike.all 8 :=
  C7_clear_then_set_back 8 53 ⟨1, 14⟩

/-- C1: on a read-write register, `put_back(mv)` followed by `read` yields
`(old & NOT mv.mask) | mv.val`; the bits inside `mv.mask` equal the
corresponding bits of `mv.val` and the bits outside `mv.mask` equal the
bits of the prior register value, for every prior value and every MaskedVal
produced by `Bits.val` or the `+` combinations. -/
theorem C1_put_back_frame (w old : Nat) (mv : MaskedVal)
    (hold : old < 2 ^ w) (hmv : Reach w mv) :
    put_back w old mv = old &&& wnot w mv.mask ||| mv.val ∧
    put_back w old mv &&& mv.mask = mv.val ∧
    put_back w old mv &&& wnot w mv.mask = old &&& wnot w mv.mask := by
  obtain ⟨hv, hm, hsub⟩ := reach_spec hmv
  refine ⟨rfl, ?_, ?_⟩
  · apply Nat.eq_of_testBit_eq
    intro i
    show ((old &&& wnot w mv.mask ||| mv.val) &&& mv.mask).testBit i
        = mv.val.testBit i
    simp only [Nat.testBit_and, Nat.testBit_or, wnot_testBit]
    by_cases hi : i < w
    · cases hmb : mv.mask.testBit i
      · have hvb : mv.val.testBit i = false := by
          cases hvb : mv.val.testBit i
          · rfl
          · exact absurd (hsub i hvb) (by simp [hmb])
        simp [hvb]
      · simp [hi]
    · have h1 : mv.mask.testBit i = false := testBit_high hm (Nat.le_of_not_lt hi)
      have h2 : mv.val.testBit i = false := testBit_high hv (Nat.le_of_not_lt hi)
      simp [h1, h2]
  · apply Nat.eq_of_testBit_eq
    intro i
    show ((old &&& wnot w mv.mask ||| mv.val) &&& wnot w mv.mask).testBit i
        = (old &&& wnot w mv.mask).testBit i
    simp only [Nat.testBit_and, Nat.testBit_or, wnot_testBit]
    by_cases hi : i < w
    · cases hmb : mv.mask.testBit i
      · have hvb : mv.val.testBit i = false := by
          cases hvb : mv.val.testBit i
          · rfl
          · exact absurd (hsub i hvb) (by simp [hmb])
        simp [hmb, hvb, hi]
      · simp [hmb, hi]
    · have h1 : mv.mask.testBit i = false := testBit_high hm (Nat.le_of_not_lt hi)
      have h2 : mv.val.testBit i = false := testBit_high hv (Nat.le_of_not_lt hi)
      simp [h1, h2, hi]

/-- Witness for C1 at width 8: prior value 0xAB, MaskedVal from putting 2
into the two-bit field at offset 2. -/
theorem C1_put_back_frame_witness :
    (171 : Nat) < 2 ^ 8 ∧
    (put_back 8 171 (Bits.val 8 ⟨2, 12⟩ 2)
        = 171 &&& wnot 8 (Bits.val 8 ⟨2, 12⟩ 2).mask ||| (Bits.val 8 ⟨2, 12⟩ 2).val ∧
      put_back 8 171 (Bits.val 8 ⟨2, 12⟩ 2) &&& (Bits.val 8 ⟨2, 12⟩ 2).mask
        = (Bits.val 8 ⟨2, 12⟩ 2).val ∧
      put_back 8 171 (Bits.val 8 ⟨2, 12⟩ 2) &&& wnot 8 (Bits.val 8 ⟨2, 12⟩ 2).mask
        = 171 &&& wnot 8 (Bits.val 8 ⟨2, 12⟩ 2).mask) :=
  ⟨by decide,
    C1_put_back_frame 8 171 (Bits.val 8 ⟨2, 12⟩ 2) (by decide)
      (Reach.ofVal ⟨2, 12⟩ 2 (by decide))⟩

/-- C2: putting `bits.val(v)` into a writable register and reading the field
back with `get(bits)` returns exactly `v &&& ((1 <<< size) - 1)`, for a field
whose mask and offset come from a valid `(offset, size)` declaration. -/
theorem C2_put_then_get (w offset size v r : Nat) (b : Bits)
    (hvalid : validField w offset size)
    (hoff : b.offset = offset)
    (hmask : b.mask = ((1 <<< size) - 1) <<< offset)
    (hv : v < 2 ^ w) :
    get (put r (Bits.val w b v)) b = v &&& ((1 <<< size) - 1) := by
  obtain ⟨hs, hsw, hsow⟩ := hvalid
  have hm1 : (1 : Nat) <<< size = 2 ^ size := by rw [Nat.shiftLeft_eq, one_mul]
  apply Nat.eq_of_testBit_eq
  intro j
  show (((wtrunc w (v <<< b.offset) &&& b.mask) &&& b.mask) >>> b.offset).testBit j
      = (v &&& ((1 <<< size) - 1)).testBit j
  rw [hoff, hmask, hm1, Nat.testBit_shiftRight]
  simp only [Nat.testBit_and, wtrunc_testBit, Nat.testBit_shiftLeft,
    Nat.testBit_two_pow_sub_one]
  have h1 : offset ≤ offset + j := Nat.le_add_right offset j
  have e1 : offset + j - offset = j := by omega
  rw [e1]
  by_cases hj : j < size
  · have hw2 : offset + j < w := by omega
    simp [h1, hj, hw2]
  · simp [hj]

/-- Witness for C2 at width 8: field of size 3 at offset 4, over-wide raw
value 13 = 0b1101 truncated to 0b101. -/
theorem C2_put_then_get_witness :
    validField 8 4 3 ∧
    get (put 0 (Bits.val 8 ⟨4, ((1 <<< 3) - 1) <<< 4⟩ 13))
        ⟨4, ((1 <<< 3) - 1) <<< 4⟩ = 13 &&& ((1 <<< 3) - 1) :=
  ⟨⟨by decide, by decide, by decide⟩,
    C2_put_then_get 8 4 3 13 0 ⟨4, ((1 <<< 3) - 1) <<< 4⟩
      ⟨by decide, by decide, by decide⟩ rfl rfl (by decide)⟩

lemma testBit_two_pow_sub_two {w i : Nat} (hw : 0 < w) :
    (2 ^ w - 2).testBit i = (decide (1 ≤ i) && decide (i < w)) := by
  have h1 : w - 1 + 1 = w := by omega
  have h2 : 2 * 2 ^ (w - 1) = 2 ^ w := by
    rw [← pow_succ', h1]
  have h3 : 0 < 2 ^ (w - 1) := two_pow_pos (w - 1)
  have hrw : 2 ^ w - 2 = 2 * (2 ^ (w - 1) - 1) := by omega
  rcases i with _ | j
  · rw [hrw, Nat.testBit_zero]
    simp [Nat.mul_mod_right]
  · rw [hrw, Nat.testBit_succ,
      Nat.mul_div_cancel_left _ (by norm_num : (0 : Nat) < 2),
      Nat.testBit_two_pow_sub_one]
    by_cases hj : j < w - 1
    · have e2 : j + 1 < w := by omega
      have e3 : 1 ≤ j + 1 := by omega
      simp [hj, e2, e3]
    · have e2 : ¬ (j + 1 < w) := by omega
      simp [hj, e2]

lemma genMask_eq {w offset size : Nat} (hw2 : 2 ≤ w)
    (hs : 0 < size) (hsw : size ≤ w) (hsow : size + offset ≤ w) :
    genMask w offset size = (2 ^ size - 1) <<< offset := by
  have hw : 0 < w := by omega
  have h2w : 4 ≤ 2 ^ w := by
    calc (4 : Nat) = 2 ^ 2 := rfl
    _ ≤ 2 ^ w := Nat.pow_le_pow_right (by norm_num) hw2
  have hB : wsub w 0 2 = 2 ^ w - 2 := by
    unfold wsub
    rw [Nat.zero_mod, Nat.mod_eq_of_lt (by omega : (2 : Nat) < 2 ^ w),
      Nat.zero_add, Nat.mod_eq_of_lt (by omega)]
  rcases Nat.lt_or_ge size w with hswlt | hsweq
  · have hpow : 2 ^ size < 2 ^ w := Nat.pow_lt_pow_right (by norm_num) hswlt
    have hA : wshl w 1 size = 2 ^ size := by
      unfold wshl
      rw [Nat.mod_eq_of_lt hswlt, Nat.shiftLeft_eq, one_mul,
        Nat.mod_eq_of_lt hpow]
    have hland : 2 ^ size &&& (2 ^ w - 2) = 2 ^ size := by
      apply Nat.eq_of_testBit_eq
      intro i
      rw [Nat.testBit_and, testBit_two_pow_sub_two hw]
      by_cases hisz : i = size
      · rw [hisz, Nat.testBit_two_pow_self]
        have e3 : 1 ≤ size := hs
        simp [e3, hswlt]
      · rw [Nat.testBit_two_pow_of_ne (by omega : size ≠ i)]
        simp
    have hps : 0 < 2 ^ size := two_pow_pos size
    have hC : wsub w (2 ^ size) 1 = 2 ^ size - 1 := by
      unfold wsub
      rw [Nat.mod_eq_of_lt hpow, Nat.mod_eq_of_lt (by omega : (1 : Nat) < 2 ^ w)]
      have e1 : 2 ^ size + (2 ^ w - 1) = 2 ^ w + (2 ^ size - 1) := by omega
      rw [e1, Nat.add_mod_left, Nat.mod_eq_of_lt (by omega)]
    have hfit : (2 ^ size - 1) <<< offset < 2 ^ w := by
      rw [Nat.shiftLeft_eq]
      calc (2 ^ size - 1) * 2 ^ offset < 2 ^ size * 2 ^ offset :=
            (Nat.mul_lt_mul_right (two_pow_pos offset)).mpr (by omega)
      _ = 2 ^ (size + offset) := by rw [← pow_add]
      _ ≤ 2 ^ w := Nat.pow_le_pow_right (by norm_num) hsow
    unfold genMask wtrunc
    rw [hA, hB, hland, hC, Nat.mod_eq_of_lt hfit]
  · have hsz : size = w := by omega
    have hoff : offset = 0 := by omega
    rw [hsz, hoff]
    have hA : wshl w 1 w = 1 := by
      unfold wshl
      rw [Nat.mod_self, Nat.shiftLeft_zero, Nat.mod_eq_of_lt (by omega)]
    have hland : 1 &&& (2 ^ w - 2) = 0 := by
      apply Nat.eq_of_testBit_eq
      intro i
      rw [Nat.testBit_and, testBit_two_pow_sub_two hw, Nat.zero_testBit]
      rcases i with _ | j
      · simp
      · have hone : (1 : Nat).testBit (j + 1) = false := by
          rw [Nat.testBit_succ]
          simp
        simp [hone]
    have hC : wsub w 0 1 = 2 ^ w - 1 := all_eq w
    unfold genMask wtrunc
    rw [hA, hB, hland, hC, Nat.shiftLeft_zero, Nat.mod_eq_of_lt (by omega)]

/-- C8: for the widths 8/16/32/64 and every declaration passing the
build-time validation, the generated mask equals `((1 <<< size) - 1) <<<
offset`: exactly `size` contiguous set bits occupying positions
`[offset, offset + size)`; in particular `size = w` yields all-ones via the
wraparound shift arithmetic, with no overflow error. -/
theorem C8_generated_mask (w offset size : Nat)
    (hW : w = 8 ∨ w = 16 ∨ w = 32 ∨ w = 64)
    (hvalid : validField w offset size) :
    genMask w offset size = ((1 <<< size) - 1) <<< offset ∧
    ∀ i, (genMask w offset size).testBit i = true ↔
      offset ≤ i ∧ i < offset + size := by
  obtain ⟨hs, hsw, hsow⟩ := hvalid
  have hw2 : 2 ≤ w := by rcases hW with h | h | h | h <;> omega
  have hmain : genMask w offset size = (2 ^ size - 1) <<< offset :=
    genMask_eq hw2 hs hsw hsow
  have hm1 : (1 : Nat) <<< size = 2 ^ size := by rw [Nat.shiftLeft_eq, one_mul]
  constructor
  · rw [hmain, hm1]
  · intro i
    rw [hmain, Nat.testBit_shiftLeft, Nat.testBit_two_pow_sub_one]
    simp only [Bool.and_eq_true_iff, decide_eq_true_eq]
    omega

/-- Witness for C8: width 8, a full-width field (offset 0, size 8) generates
the all-ones mask 0xFF. -/
theorem C8_generated_mask_witness :
    (8 = 8 ∨ 8 = 16 ∨ 8 = 32 ∨ 8 = 64) ∧ validField 8 0 8 ∧
    (genMask 8 0 8 = ((1 <<< 8) - 1) <<< 0 ∧
      ∀ i, (genMask 8 0 8).testBit i = true ↔ 0 ≤ i ∧ i < 0 + 8) :=
  ⟨Or.inl rfl, ⟨by decide, by decide, by decide⟩,
    C8_generated_mask 8 0 8 (Or.inl rfl) ⟨by decide, by decide, by decide⟩⟩

end ReReg
